import Mathlib

/-!
Verification of the mempool-server repository: a shallow embedding of the
ordered mempool store (src/mempool.rs), the bulk loader and event updater
(src/main.rs), and the configuration layer (src/settings.rs), together with
theorems settling the specification claims.

Machine integers: the Rust code uses u64 for the arrival counter and u32/usize
for sizes.  They are modelled as Nat; byte renderings truncate explicitly
(big-endian encoding of width w keeps the value mod 256^w, exactly as the
Rust casts and to_be_bytes do).
-/

/-- Transaction identifier in textual (hex) form; the store keys on `String`
(`Txid::to_string()` in the Rust code is the identity on this model). -/
abbrev TxId := String

/-- Opaque transaction bytes (`Vec<u8>` in the source); the core never parses
them, so the byte contents are unconstrained naturals. -/
abbrev TxBytes := List Nat

/-- `TxDepth` from src/txdepth.rs: a mempool entry together with its
ancestor count (`usize`). -/
structure TxDepth where
  ancestor_count : Nat
  tx_id : TxId
  bytes : TxBytes
deriving DecidableEq

/-- The `DashMap<String, u64>` of the store, embedded as an association list
(insertion order; keys unique in every reachable state).  `insert` overwrites
the value of an existing key in place and appends a new key at the end. -/
def dmInsert (k : TxId) (v : Nat) : List (TxId × Nat) → List (TxId × Nat)
  | [] => [(k, v)]
  | (k', v') :: rest =>
    if k = k' then (k, v) :: rest else (k', v') :: dmInsert k v rest

/-- `DashMap` lookup: value of the first entry with the given key. -/
def dmLookup (k : TxId) : List (TxId × Nat) → Option Nat
  | [] => none
  | (k', v') :: rest => if k = k' then some v' else dmLookup k rest

/-- `DashMap::remove`: drop the (first) entry with the given key. -/
def dmErase (k : TxId) : List (TxId × Nat) → List (TxId × Nat)
  | [] => []
  | (k', v') :: rest => if k = k' then rest else (k', v') :: dmErase k rest

/-- The `SkipMap<u64, Vec<u8>>` of the store, embedded as an association list
kept sorted by key; `insert` is ordered insertion (replacing on an equal
key, as `SkipMap::insert` does). -/
def skInsert (k : Nat) (v : TxBytes) : List (Nat × TxBytes) → List (Nat × TxBytes)
  | [] => [(k, v)]
  | (k', v') :: rest =>
    if k < k' then (k, v) :: (k', v') :: rest
    else if k = k' then (k, v) :: rest
    else (k', v') :: skInsert k v rest

/-- `SkipMap::remove`: drop the (first) entry with the given key. -/
def skRemove (k : Nat) : List (Nat × TxBytes) → List (Nat × TxBytes)
  | [] => []
  | (k', v') :: rest => if k = k' then rest else (k', v') :: skRemove k rest

/-- The ordered mempool store from src/mempool.rs: a monotonic arrival
counter (u64, `AtomicU64`), the `Seq → bytes` skip map `id_tx_map`, and the
`TxId → Seq` hash map `txid_id_map`. -/
structure Mempool where
  counter : Nat
  id_tx_map : List (Nat × TxBytes)
  txid_id_map : List (TxId × Nat)

/-- `Mempool::new()`: counter 0 and both maps empty. -/
def Mempool.new : Mempool := { counter := 0, id_tx_map := [], txid_id_map := [] }

/-- `Mempool::add_tx`: `previous_value = counter.fetch_add(1)`, then
`txid_id_map.insert(tx_id, previous_value)`, then
`id_tx_map.insert(previous_value, bytes)`. -/
def Mempool.add_tx (m : Mempool) (tx_id : TxId) (bytes : TxBytes) : Mempool :=
  let previous_value := m.counter
  { counter := m.counter + 1
    id_tx_map := skInsert previous_value bytes m.id_tx_map
    txid_id_map := dmInsert tx_id previous_value m.txid_id_map }

/-- `Mempool::remove_tx`: remove `tx_id` from `txid_id_map`; if it was
present with seq `id`, also remove `id` from `id_tx_map`; otherwise no-op. -/
def Mempool.remove_tx (m : Mempool) (tx_id : TxId) : Mempool :=
  match dmLookup tx_id m.txid_id_map with
  | some id =>
      { m with
        txid_id_map := dmErase tx_id m.txid_id_map
        id_tx_map := skRemove id m.id_tx_map }
  | none => m

/-- `Mempool::len()`: the number of entries of `txid_id_map` (the `as u32`
cast only matters when rendered to 4 bytes, where truncation is explicit). -/
def Mempool.len (m : Mempool) : Nat := m.txid_id_map.length

/-- `Mempool::load_mempool_with`: insert layer by layer, each layer in
order, via `add_tx` (`tx_depth.tx_id.to_string()` is the identity here). -/
def Mempool.load_mempool_with (m : Mempool) (vec2 : List (List TxDepth)) : Mempool :=
  vec2.foldl (fun m v => v.foldl (fun m t => m.add_tx t.tx_id t.bytes) m) m

/-- `Mempool::pos_data_iterator_from(from)`: the entries of `id_tx_map` with
key in `[from, ∞)` in map (ascending-key) order — `SkipMap::range(from..)`. -/
def Mempool.pos_data_iterator_from (m : Mempool) (start : Nat) : List (Nat × TxBytes) :=
  m.id_tx_map.filter (fun e => decide (start ≤ e.1))

/-- A quiescent operation against the store: one `add_tx` or one
`remove_tx` call. -/
inductive Op where
  | add (tx_id : TxId) (bytes : TxBytes)
  | remove (tx_id : TxId)
deriving DecidableEq

/-- Apply one operation to the store. -/
def applyOp (m : Mempool) : Op → Mempool
  | Op.add t b => m.add_tx t b
  | Op.remove t => m.remove_tx t

/-- Apply a sequence of operations, left to right. -/
def applyOps (m : Mempool) (ops : List Op) : Mempool := ops.foldl applyOp m

/-- Whether an operation is an insertion. -/
def Op.isAdd : Op → Bool
  | Op.add _ _ => true
  | Op.remove _ => false

/-- Number of insertions in a sequence of operations. -/
def countAdds (ops : List Op) : Nat := (ops.filter Op.isAdd).length

/-- A run of operations in which every `add_tx` call uses a `TxId` that is
not present in the store at that moment (no overwriting insertion). -/
def freshAdds : Mempool → List Op → Bool
  | _, [] => true
  | m, Op.add t b :: rest =>
      (dmLookup t m.txid_id_map).isNone && freshAdds (m.add_tx t b) rest
  | m, Op.remove t :: rest => freshAdds (m.remove_tx t) rest

/-- Structural invariant of reachable stores: keys of `txid_id_map` are
unique, its values (the assigned `Seq`s) are unique, below the counter and
present as keys of `id_tx_map`, and the keys of `id_tx_map` are strictly
sorted and below the counter. -/
structure MpInv (m : Mempool) : Prop where
  tkNodup : (m.txid_id_map.map Prod.fst).Nodup
  vNodup : (m.txid_id_map.map Prod.snd).Nodup
  vLt : ∀ s ∈ m.txid_id_map.map Prod.snd, s < m.counter
  vInM2 : ∀ s ∈ m.txid_id_map.map Prod.snd, s ∈ m.id_tx_map.map Prod.fst
  kSorted : (m.id_tx_map.map Prod.fst).Sorted (· < ·)
  kLt : ∀ k ∈ m.id_tx_map.map Prod.fst, k < m.counter

/-- The converse coverage property: every `Seq` key of `id_tx_map` is the
value of some `txid_id_map` entry.  It holds on fresh-add runs but is
destroyed by an overwriting `add_tx`. -/
def NoOrphan (m : Mempool) : Prop :=
  ∀ k ∈ m.id_tx_map.map Prod.fst, k ∈ m.txid_id_map.map Prod.snd

/-- Big-endian byte rendering of width `w` (as Rust `to_be_bytes` on the
corresponding fixed-width integer: the value is taken mod 256^w). -/
def be_bytes (w n : Nat) : List Nat :=
  (List.range w).map (fun i => n / 256 ^ (w - 1 - i) % 256)

/-- The concatenated frames of a data stream: for each entry, 4 big-endian
bytes of the payload length followed by the payload. -/
def framesBytes : List (Nat × TxBytes) → List Nat
  | [] => []
  | entry :: rest => be_bytes 4 entry.2.length ++ entry.2 ++ framesBytes rest

/-- The `/txsdata` generator loop from src/main.rs: iterate the
`pos_data_iterator` entries; on the first entry emit the u64::MAX magic, the
`len()` size hint (u32) and the `counter()` snapshot (u64), then for every
entry the 4-byte length and the data. -/
def txsdataLoop (m : Mempool) : List (Nat × TxBytes) → Bool → List Nat
  | [], _ => []
  | entry :: rest, first =>
    let data := entry.2
    let size := data.length
    (if first then
        be_bytes 8 (2 ^ 64 - 1) ++ be_bytes 4 m.len ++ be_bytes 8 m.counter
      else []) ++ be_bytes 4 size ++ data ++ txsdataLoop m rest false

/-- The `/txsdata` response body: the generator run over the full
`id_tx_map` iteration with the first-entry flag initially set. -/
def txsdata (m : Mempool) : List Nat := txsdataLoop m m.id_tx_map true

/-- The ZMQ sequence events consumed by `update_mempool`
(`MempoolSequence` of the bitcoincore-zmqsequence crate, §3 of the spec). -/
inductive MempoolSequence where
  | seqStart (bitcoind_already_working : Bool)
  | seqError (error : String)
  | txAdded (txid : String)
  | txRemoved (txid : String)
  | blockConnection (block_hash : String)
  | blockDisconnection (block_hash : String)

/-- The node RPC client as used by the updater:
`get_raw_transaction_hex` is the src/main.rs helper of the same name (any
RPC error is already collapsed to `None` there), and `get_block_info`
returns the txid list of a block or propagates an error. -/
structure Client where
  get_raw_transaction_hex : String → Option TxBytes
  get_block_info : String → Except String (List String)

/-- `update_mempool` from src/main.rs.  The parse functions stand for the
external `Hash::from_str` / `BlockHash::from_str` (their failures propagate
with `?` before any RPC call).  Result: the `Result<()>` value, the store
after the call (the Rust code mutates in place; error paths return before
mutating), and the number of RPC calls (`get_raw_transaction_hex` or
`get_block_info` invocations) performed while handling the event. -/
def update_mempool (mempool : Mempool) (mps : MempoolSequence) (bcc : Client)
    (hashFromStr : String → Except String String)
    (blockHashFromStr : String → Except String String) :
    Except String Unit × Mempool × Nat :=
  match mps with
  | MempoolSequence.seqStart bitcoind_already_working =>
      if !bitcoind_already_working then
        (Except.error "Bitcoind node was not already working:", mempool, 0)
      else (Except.ok (), mempool, 0)
  | MempoolSequence.seqError e => (Except.error ("Error: " ++ e), mempool, 0)
  | MempoolSequence.txAdded txid =>
      match hashFromStr txid with
      | Except.error e => (Except.error e, mempool, 0)
      | Except.ok tx_id =>
          match bcc.get_raw_transaction_hex tx_id with
          | some bytes => (Except.ok (), mempool.add_tx txid bytes, 1)
          | none => (Except.ok (), mempool, 1)
  | MempoolSequence.txRemoved txid => (Except.ok (), mempool.remove_tx txid, 0)
  | MempoolSequence.blockConnection block_hash =>
      match blockHashFromStr block_hash with
      | Except.error e => (Except.error e, mempool, 0)
      | Except.ok bh =>
          match bcc.get_block_info bh with
          | Except.error e => (Except.error e, mempool, 1)
          | Except.ok txs =>
              (Except.ok (), txs.foldl (fun m tx_id => m.remove_tx tx_id) mempool, 1)
  | MempoolSequence.blockDisconnection block_hash =>
      match blockHashFromStr block_hash with
      | Except.error e => (Except.error e, mempool, 0)
      | Except.ok bh =>
          match bcc.get_block_info bh with
          | Except.error e => (Except.error e, mempool, 1)
          | Except.ok txs =>
              (Except.ok (),
                txs.foldl (fun m tx_id =>
                  match bcc.get_raw_transaction_hex tx_id with
                  | some bytes => m.add_tx tx_id bytes
                  | none => m) mempool,
                1 + txs.length)

/-- One iteration of the `get_mempool_layers` loop from src/main.rs:
compute `ancestor_index = ancestor_count - 1`, pad `vec2` with empty
buckets while `vec2.len() <= ancestor_index`, then push the record onto
`vec2[ancestor_index]`. -/
def bucketPush (vec2 : List (List TxDepth)) (tx_depth : TxDepth) : List (List TxDepth) :=
  let ancestor_index := tx_depth.ancestor_count - 1
  let padded :=
    if vec2.length ≤ ancestor_index then
      vec2 ++ List.replicate (ancestor_index + 1 - vec2.length) []
    else vec2
  padded.set ancestor_index (padded.getD ancestor_index [] ++ [tx_depth])

/-- `get_mempool_layers` from src/main.rs: bucket the records by
`ancestor_count - 1` into a dense list of layers. -/
def get_mempool_layers (vec : List TxDepth) : List (List TxDepth) :=
  vec.foldl bucketPush []

/-- Maximum `ancestor_count` over the input, 0 for the empty input. -/
def maxAncestorCount (vec : List TxDepth) : Nat :=
  vec.foldl (fun a t => max a t.ancestor_count) 0

/-- Checked `usize` subtraction: Rust `a - b` underflows (panics in debug
builds) when `b > a`; `none` models that outcome. -/
def checkedSub (a b : Nat) : Option Nat :=
  if b ≤ a then some (a - b) else none

/-- `BitcoindClient` from src/settings.rs (paths as plain strings). -/
structure BitcoindClient where
  cookie_auth_path : Option String
  ip_addr : String
  user : Option String
  passwd : Option String
  zmq_port : Nat
  wait_timeout_sec : Option Nat
deriving DecidableEq

/-- `Settings` from src/settings.rs. -/
structure Settings where
  bitcoind_client : BitcoindClient
deriving DecidableEq

/-- `Settings::default()`: cookie path under the home directory,
localhost, zmq port 29000 and `wait_timeout_sec = Some(60)`. -/
def Settings.default (home : String) : Settings :=
  { bitcoind_client :=
      { cookie_auth_path := some (home ++ "/.bitcoin/.cookie")
        ip_addr := "127.0.0.1"
        user := none
        passwd := none
        zmq_port := 29000
        wait_timeout_sec := some 60 } }

/-- The configuration environment seen by `Settings::new`: whether
config.toml exists next to the executable, the merged file/env view of the
`config` crate keyed by full dotted path (environment entries with `MPS_`
prefix already overlaid), and the home directory. -/
structure ConfigSource where
  home : String
  fileExists : Bool
  lookup : String → Option String

/-- The merged configuration after the builder's
`set_default("bitcoindclient.waittimeout", "5")`: the default is consulted
only when no file/env source provides that exact key.  Note the key it
registers, `bitcoindclient.waittimeout`, is not the key
`bitcoindclient.waittimeoutsec` that deserialization reads. -/
def cfgLookup (src : ConfigSource) (k : String) : Option String :=
  match src.lookup k with
  | some v => some v
  | none => if k = "bitcoindclient.waittimeout" then some "5" else none

/-- Decimal parsing of a configuration value (the config crate's
`try_parsing` of an unsigned integer), written structurally over the
characters so that it evaluates inside the kernel. -/
def parseNat? (s : String) : Option Nat :=
  if s.data ≠ [] ∧ s.data.all (fun c => c.isDigit) then
    some (s.data.foldl (fun a c => a * 10 + (c.toNat - 48)) 0)
  else none

/-- `Settings::new()` from src/settings.rs: if config.toml exists, build
the merged configuration and deserialize `BitcoindClient` (required fields
`ipaddr` and `zmqport`; `cookieauthpath`, `user`, `passwd`,
`waittimeoutsec` optional, the last read as u64 when present); if the file
does not exist, return `Settings::default()`. -/
def Settings.new (src : ConfigSource) : Except String Settings :=
  if src.fileExists then
    match cfgLookup src "bitcoindclient.ipaddr",
        cfgLookup src "bitcoindclient.zmqport" with
    | some ip, some zp =>
        match parseNat? zp with
        | some zpn =>
            match cfgLookup src "bitcoindclient.waittimeoutsec" with
            | none =>
                Except.ok
                  { bitcoind_client :=
                      { cookie_auth_path := cfgLookup src "bitcoindclient.cookieauthpath"
                        ip_addr := ip
                        user := cfgLookup src "bitcoindclient.user"
                        passwd := cfgLookup src "bitcoindclient.passwd"
                        zmq_port := zpn
                        wait_timeout_sec := none } }
            | some w =>
                match parseNat? w with
                | some wn =>
                    Except.ok
                      { bitcoind_client :=
                          { cookie_auth_path := cfgLookup src "bitcoindclient.cookieauthpath"
                            ip_addr := ip
                            user := cfgLookup src "bitcoindclient.user"
                            passwd := cfgLookup src "bitcoindclient.passwd"
                            zmq_port := zpn
                            wait_timeout_sec := some wn } }
                | none => Except.error "invalid waittimeoutsec"
        | none => Except.error "invalid zmqport"
    | _, _ => Except.error "missing bitcoindclient settings"
  else Except.ok (Settings.default src.home)

/-- A configuration environment with config.toml present, the two required
keys provided, and `waittimeoutsec` given neither in the file nor through an
`MPS_`-prefixed environment variable. -/
def srcPresent : ConfigSource :=
  { home := "/home/user"
    fileExists := true
    lookup := fun k =>
      if k = "bitcoindclient.ipaddr" then some "127.0.0.1"
      else if k = "bitcoindclient.zmqport" then some "29000"
      else none }

/-- A configuration environment with no config.toml. -/
def srcAbsent : ConfigSource :=
  { home := "/home/user", fileExists := false, lookup := fun _ => none }

/-- Rust `Debug` rendering of a string value (quoted; escaping is not
relevant to the secrecy property). -/
def strDbg (s : String) : String := "\"" ++ s ++ "\""

/-- Rust `Debug` rendering of an `Option` of a path/string. -/
def optStrDbg : Option String → String
  | none => "None"
  | some s => "Some(" ++ strDbg s ++ ")"

/-- Rust `Debug` rendering of an `Option<u64>`. -/
def optNatDbg : Option Nat → String
  | none => "None"
  | some n => "Some(" ++ Nat.repr n ++ ")"

/-- The `Formatter::debug_struct` builder: struct name, then the fields as
`name: value` separated by commas, inside braces. -/
def debugStruct (name : String) (fields : List (String × String)) : String :=
  name ++ " \x7b " ++
    String.intercalate ", " (fields.map (fun f => f.1 ++ ": " ++ f.2)) ++ " \x7d"

/-- The manual `impl fmt::Debug for BitcoindClient` from src/settings.rs:
`user` and `passwd` are rendered as the literal `"****"` (the builder is fed
`&"****"`, never the configured values); `zmqport` is fed
`&self.zmq_port.to_string()`. -/
def bitcoindClientDebugFmt (c : BitcoindClient) : String :=
  debugStruct "BitcoindClient"
    [("cookie_auth_path", optStrDbg c.cookie_auth_path),
     ("ip_addr", strDbg c.ip_addr),
     ("user", strDbg "****"),
     ("passwd", strDbg "****"),
     ("zmqport", strDbg (Nat.repr c.zmq_port)),
     ("wait_timeout_sec", optNatDbg c.wait_timeout_sec)]

/-- The mount point of the HTTP routes in src/main.rs:
`rocket::build().mount("/mempoolServer", routes![size, txsids, txsdata,
txsdatafrom])`. -/
def mountPoint : String := "/mempoolServer"

/-- The route paths of the four endpoints as declared by their
`#[get(...)]` attributes. -/
def routePaths : List String :=
  ["/size", "/txsids", "/txsdata", "/txsdatafrom/<from>"]

/-- The `/size` handler body: `format!("{}", mempool.len())`. -/
def size_endpoint (m : Mempool) : String := Nat.repr m.len

/-- The inner loop of `load_mempool_with`: insert every record of one layer
in order. -/
def addAll (m : Mempool) (l : List TxDepth) : Mempool :=
  l.foldl (fun m t => m.add_tx t.tx_id t.bytes) m

/- ------------------------------------------------------------------ -/
/- Theorems -/
/- ------------------------------------------------------------------ -/

theorem dmInsert_cons_eq {k k₀ : TxId} (v v₀ : Nat) (rest : List (TxId × Nat))
    (h : k = k₀) : dmInsert k v ((k₀, v₀) :: rest) = (k, v) :: rest := by
  simp only [dmInsert, if_pos h]

theorem dmInsert_cons_ne {k k₀ : TxId} (v v₀ : Nat) (rest : List (TxId × Nat))
    (h : ¬k = k₀) :
    dmInsert k v ((k₀, v₀) :: rest) = (k₀, v₀) :: dmInsert k v rest := by
  simp only [dmInsert, if_neg h]

theorem dmLookup_cons_eq {k k₀ : TxId} (v₀ : Nat) (rest : List (TxId × Nat))
    (h : k = k₀) : dmLookup k ((k₀, v₀) :: rest) = some v₀ := by
  simp only [dmLookup, if_pos h]

theorem dmLookup_cons_ne {k k₀ : TxId} (v₀ : Nat) (rest : List (TxId × Nat))
    (h : ¬k = k₀) : dmLookup k ((k₀, v₀) :: rest) = dmLookup k rest := by
  simp only [dmLookup, if_neg h]

theorem dmErase_cons_eq {k k₀ : TxId} (v₀ : Nat) (rest : List (TxId × Nat))
    (h : k = k₀) : dmErase k ((k₀, v₀) :: rest) = rest := by
  simp only [dmErase, if_pos h]

theorem dmErase_cons_ne {k k₀ : TxId} (v₀ : Nat) (rest : List (TxId × Nat))
    (h : ¬k = k₀) : dmErase k ((k₀, v₀) :: rest) = (k₀, v₀) :: dmErase k rest := by
  simp only [dmErase, if_neg h]

theorem skInsert_cons_lt {k k₀ : Nat} (v v₀ : TxBytes) (rest : List (Nat × TxBytes))
    (h : k < k₀) :
    skInsert k v ((k₀, v₀) :: rest) = (k, v) :: (k₀, v₀) :: rest := by
  simp only [skInsert, if_pos h]

theorem skInsert_cons_eq {k k₀ : Nat} (v v₀ : TxBytes) (rest : List (Nat × TxBytes))
    (h0 : ¬k < k₀) (h1 : k = k₀) :
    skInsert k v ((k₀, v₀) :: rest) = (k, v) :: rest := by
  simp only [skInsert, if_neg h0, if_pos h1]

theorem skInsert_cons_gt {k k₀ : Nat} (v v₀ : TxBytes) (rest : List (Nat × TxBytes))
    (h0 : ¬k < k₀) (h1 : ¬k = k₀) :
    skInsert k v ((k₀, v₀) :: rest) = (k₀, v₀) :: skInsert k v rest := by
  simp only [skInsert, if_neg h0, if_neg h1]

theorem skRemove_cons_eq {k k₀ : Nat} (v₀ : TxBytes) (rest : List (Nat × TxBytes))
    (h : k = k₀) : skRemove k ((k₀, v₀) :: rest) = rest := by
  simp only [skRemove, if_pos h]

theorem skRemove_cons_ne {k k₀ : Nat} (v₀ : TxBytes) (rest : List (Nat × TxBytes))
    (h : ¬k = k₀) : skRemove k ((k₀, v₀) :: rest) = (k₀, v₀) :: skRemove k rest := by
  simp only [skRemove, if_neg h]

theorem dmLookup_eq_none {k : TxId} {l : List (TxId × Nat)} :
    dmLookup k l = none ↔ k ∉ l.map Prod.fst := by
  induction l with
  | nil => simp [dmLookup]
  | cons p rest ih =>
      obtain ⟨k', v'⟩ := p
      by_cases h : k = k'
      · subst h
        rw [dmLookup_cons_eq _ _ rfl]
        simp
      · rw [dmLookup_cons_ne _ _ h, List.map_cons, List.mem_cons]
        rw [ih]
        simp [h]

theorem dmLookup_mem {k : TxId} {v : Nat} {l : List (TxId × Nat)}
    (h : dmLookup k l = some v) : (k, v) ∈ l := by
  induction l with
  | nil => simp [dmLookup] at h
  | cons p rest ih =>
      obtain ⟨k', v'⟩ := p
      by_cases hk : k = k'
      · subst hk
        rw [dmLookup_cons_eq _ _ rfl] at h
        obtain rfl : v' = v := Option.some_injective _ h
        exact List.mem_cons_self _ _
      · rw [dmLookup_cons_ne _ _ hk] at h
        exact List.mem_cons_of_mem _ (ih h)

theorem dmLookup_dmInsert_self (k : TxId) (v : Nat) (l : List (TxId × Nat)) :
    dmLookup k (dmInsert k v l) = some v := by
  induction l with
  | nil => simp [dmInsert, dmLookup]
  | cons p rest ih =>
      obtain ⟨k', v'⟩ := p
      by_cases h : k = k'
      · rw [dmInsert_cons_eq _ _ _ h, dmLookup_cons_eq _ _ rfl]
      · rw [dmInsert_cons_ne _ _ _ h, dmLookup_cons_ne _ _ h]
        exact ih

theorem dmLookup_dmInsert_ne {k k' : TxId} (h : k ≠ k') (v : Nat)
    (l : List (TxId × Nat)) : dmLookup k (dmInsert k' v l) = dmLookup k l := by
  induction l with
  | nil =>
      show dmLookup k [(k', v)] = none
      rw [dmLookup_cons_ne _ _ h]
      rfl
  | cons p rest ih =>
      obtain ⟨k₀, v₀⟩ := p
      by_cases h0 : k' = k₀
      · rw [dmInsert_cons_eq _ _ _ h0, dmLookup_cons_ne _ _ h,
          dmLookup_cons_ne _ _ (h0 ▸ h)]
      · by_cases h1 : k = k₀
        · rw [dmInsert_cons_ne _ _ _ h0, dmLookup_cons_eq _ _ h1,
            dmLookup_cons_eq _ _ h1]
        · rw [dmInsert_cons_ne _ _ _ h0, dmLookup_cons_ne _ _ h1,
            dmLookup_cons_ne _ _ h1, ih]

theorem keys_dmInsert_subset {x k : TxId} {v : Nat} {l : List (TxId × Nat)}
    (h : x ∈ (dmInsert k v l).map Prod.fst) : x = k ∨ x ∈ l.map Prod.fst := by
  induction l with
  | nil =>
      left
      simpa [dmInsert] using h
  | cons p rest ih =>
      obtain ⟨k₀, v₀⟩ := p
      by_cases h0 : k = k₀
      · rw [dmInsert_cons_eq _ _ _ h0, List.map_cons, List.mem_cons] at h
        rw [List.map_cons, List.mem_cons]
        tauto
      · rw [dmInsert_cons_ne _ _ _ h0, List.map_cons, List.mem_cons] at h
        rw [List.map_cons, List.mem_cons]
        rcases h with h | h
        · tauto
        · rcases ih h with h | h <;> tauto

theorem snds_dmInsert_subset {x : Nat} {k : TxId} {v : Nat} {l : List (TxId × Nat)}
    (h : x ∈ (dmInsert k v l).map Prod.snd) : x = v ∨ x ∈ l.map Prod.snd := by
  induction l with
  | nil =>
      left
      simpa [dmInsert] using h
  | cons p rest ih =>
      obtain ⟨k₀, v₀⟩ := p
      by_cases h0 : k = k₀
      · rw [dmInsert_cons_eq _ _ _ h0, List.map_cons, List.mem_cons] at h
        rw [List.map_cons, List.mem_cons]
        tauto
      · rw [dmInsert_cons_ne _ _ _ h0, List.map_cons, List.mem_cons] at h
        rw [List.map_cons, List.mem_cons]
        rcases h with h | h
        · tauto
        · rcases ih h with h | h <;> tauto

theorem keys_dmInsert_nodup {k : TxId} {v : Nat} {l : List (TxId × Nat)}
    (h : (l.map Prod.fst).Nodup) : ((dmInsert k v l).map Prod.fst).Nodup := by
  induction l with
  | nil => simp [dmInsert]
  | cons p rest ih =>
      obtain ⟨k₀, v₀⟩ := p
      rw [List.map_cons, List.nodup_cons] at h
      by_cases h0 : k = k₀
      · rw [dmInsert_cons_eq _ _ _ h0, List.map_cons, List.nodup_cons]
        exact ⟨h0 ▸ h.1, h.2⟩
      · rw [dmInsert_cons_ne _ _ _ h0, List.map_cons, List.nodup_cons]
        refine ⟨fun hin => ?_, ih h.2⟩
        rcases keys_dmInsert_subset hin with h1 | h1
        · exact h0 h1.symm
        · exact h.1 h1

theorem snds_dmInsert_nodup {k : TxId} {v : Nat} {l : List (TxId × Nat)}
    (hlt : ∀ s ∈ l.map Prod.snd, s < v) (h : (l.map Prod.snd).Nodup) :
    ((dmInsert k v l).map Prod.snd).Nodup := by
  induction l with
  | nil => simp [dmInsert]
  | cons p rest ih =>
      obtain ⟨k₀, v₀⟩ := p
      rw [List.map_cons, List.nodup_cons] at h
      by_cases h0 : k = k₀
      · rw [dmInsert_cons_eq _ _ _ h0, List.map_cons, List.nodup_cons]
        refine ⟨fun hin => ?_, h.2⟩
        have := hlt v (List.mem_cons_of_mem _ hin)
        omega
      · rw [dmInsert_cons_ne _ _ _ h0, List.map_cons, List.nodup_cons]
        refine ⟨fun hin => ?_,
          ih (fun s hs => hlt s (List.mem_cons_of_mem _ hs)) h.2⟩
        rcases snds_dmInsert_subset hin with h1 | h1
        · have := hlt v₀ (List.mem_cons_self _ _)
          omega
        · exact h.1 h1

theorem dmInsert_absent {k : TxId} {v : Nat} {l : List (TxId × Nat)}
    (h : k ∉ l.map Prod.fst) : dmInsert k v l = l ++ [(k, v)] := by
  induction l with
  | nil => rfl
  | cons p rest ih =>
      obtain ⟨k₀, v₀⟩ := p
      rw [List.map_cons, List.mem_cons, not_or] at h
      rw [dmInsert_cons_ne _ _ _ h.1, ih h.2, List.cons_append]

theorem dmErase_sublist (k : TxId) (l : List (TxId × Nat)) :
    (dmErase k l).Sublist l := by
  induction l with
  | nil => simp [dmErase]
  | cons p rest ih =>
      obtain ⟨k₀, v₀⟩ := p
      by_cases h : k = k₀
      · rw [dmErase_cons_eq _ _ h]
        exact List.sublist_cons_self _ _
      · rw [dmErase_cons_ne _ _ h]
        exact ih.cons₂ _

theorem mem_dmErase_of_ne {p : TxId × Nat} {k : TxId} {l : List (TxId × Nat)}
    (hne : p.1 ≠ k) (h : p ∈ l) : p ∈ dmErase k l := by
  induction l with
  | nil => simp at h
  | cons q rest ih =>
      obtain ⟨k₀, v₀⟩ := q
      rcases List.mem_cons.mp h with h | h
      · subst h
        rw [dmErase_cons_ne _ _ (fun hq => hne hq.symm)]
        exact List.mem_cons_self _ _
      · by_cases h0 : k = k₀
        · rw [dmErase_cons_eq _ _ h0]; exact h
        · rw [dmErase_cons_ne _ _ h0]
          exact List.mem_cons_of_mem _ (ih h)

theorem fst_ne_of_mem_dmErase {p : TxId × Nat} {k : TxId} {l : List (TxId × Nat)}
    (hnd : (l.map Prod.fst).Nodup) (h : p ∈ dmErase k l) : p.1 ≠ k := by
  induction l with
  | nil => simp [dmErase] at h
  | cons q rest ih =>
      obtain ⟨k₀, v₀⟩ := q
      rw [List.map_cons, List.nodup_cons] at hnd
      by_cases h0 : k = k₀
      · rw [dmErase_cons_eq _ _ h0] at h
        intro hp
        have hmem : p.1 ∈ rest.map Prod.fst := List.mem_map_of_mem Prod.fst h
        rw [hp, h0] at hmem
        exact hnd.1 hmem
      · rw [dmErase_cons_ne _ _ h0] at h
        rcases List.mem_cons.mp h with h | h
        · subst h; exact fun hq => h0 hq.symm
        · exact ih hnd.2 h

theorem keys_skInsert_subset {x k : Nat} {v : TxBytes} {l : List (Nat × TxBytes)}
    (h : x ∈ (skInsert k v l).map Prod.fst) : x = k ∨ x ∈ l.map Prod.fst := by
  induction l with
  | nil =>
      left
      simpa [skInsert] using h
  | cons p rest ih =>
      obtain ⟨k₀, v₀⟩ := p
      by_cases h0 : k < k₀
      · rw [skInsert_cons_lt _ _ _ h0, List.map_cons, List.mem_cons] at h
        rcases h with h | h <;> tauto
      · by_cases h1 : k = k₀
        · rw [skInsert_cons_eq _ _ _ h0 h1, List.map_cons, List.mem_cons] at h
          rw [List.map_cons, List.mem_cons]
          rcases h with h | h <;> tauto
        · rw [skInsert_cons_gt _ _ _ h0 h1, List.map_cons, List.mem_cons] at h
          rw [List.map_cons, List.mem_cons]
          rcases h with h | h
          · tauto
          · rcases ih h with h | h <;> tauto

theorem self_mem_keys_skInsert (k : Nat) (v : TxBytes) (l : List (Nat × TxBytes)) :
    k ∈ (skInsert k v l).map Prod.fst := by
  induction l with
  | nil => simp [skInsert]
  | cons p rest ih =>
      obtain ⟨k₀, v₀⟩ := p
      by_cases h0 : k < k₀
      · rw [skInsert_cons_lt _ _ _ h0, List.map_cons, List.mem_cons]
        tauto
      · by_cases h1 : k = k₀
        · rw [skInsert_cons_eq _ _ _ h0 h1, List.map_cons, List.mem_cons]
          tauto
        · rw [skInsert_cons_gt _ _ _ h0 h1, List.map_cons, List.mem_cons]
          exact Or.inr ih

theorem mem_keys_skInsert_of_mem {x : Nat} (k : Nat) (v : TxBytes)
    {l : List (Nat × TxBytes)} (h : x ∈ l.map Prod.fst) :
    x ∈ (skInsert k v l).map Prod.fst := by
  induction l with
  | nil => simp at h
  | cons p rest ih =>
      obtain ⟨k₀, v₀⟩ := p
      rw [List.map_cons, List.mem_cons] at h
      by_cases h0 : k < k₀
      · rw [skInsert_cons_lt _ _ _ h0, List.map_cons, List.mem_cons,
          List.map_cons, List.mem_cons]
        tauto
      · by_cases h1 : k = k₀
        · rw [skInsert_cons_eq _ _ _ h0 h1, List.map_cons, List.mem_cons]
          rcases h with h | h
          · exact Or.inl (h.trans h1.symm)
          · exact Or.inr h
        · rw [skInsert_cons_gt _ _ _ h0 h1, List.map_cons, List.mem_cons]
          rcases h with h | h
          · exact Or.inl h
          · exact Or.inr (ih h)

theorem keys_skInsert_sorted {k : Nat} {v : TxBytes} {l : List (Nat × TxBytes)}
    (h : (l.map Prod.fst).Sorted (· < ·)) :
    ((skInsert k v l).map Prod.fst).Sorted (· < ·) := by
  induction l with
  | nil => simp [skInsert]
  | cons p rest ih =>
      obtain ⟨k₀, v₀⟩ := p
      rw [List.map_cons, List.sorted_cons] at h
      by_cases h0 : k < k₀
      · rw [skInsert_cons_lt _ _ _ h0, List.map_cons, List.sorted_cons]
        refine ⟨fun b hb => ?_, ?_⟩
        · rw [List.map_cons, List.mem_cons] at hb
          rcases hb with hb | hb
          · omega
          · have := h.1 b hb
            omega
        · rw [List.map_cons, List.sorted_cons]
          exact h
      · by_cases h1 : k = k₀
        · rw [skInsert_cons_eq _ _ _ h0 h1, List.map_cons, List.sorted_cons]
          exact ⟨fun b hb => h1 ▸ h.1 b hb, h.2⟩
        · rw [skInsert_cons_gt _ _ _ h0 h1, List.map_cons, List.sorted_cons]
          refine ⟨fun b hb => ?_, ih h.2⟩
          rcases keys_skInsert_subset hb with hb | hb
          · omega
          · exact h.1 b hb

theorem skRemove_sublist (k : Nat) (l : List (Nat × TxBytes)) :
    (skRemove k l).Sublist l := by
  induction l with
  | nil => simp [skRemove]
  | cons p rest ih =>
      obtain ⟨k₀, v₀⟩ := p
      by_cases h : k = k₀
      · rw [skRemove_cons_eq _ _ h]
        exact List.sublist_cons_self _ _
      · rw [skRemove_cons_ne _ _ h]
        exact ih.cons₂ _

theorem mem_keys_skRemove_of_ne {x k : Nat} {l : List (Nat × TxBytes)}
    (hne : x ≠ k) (h : x ∈ l.map Prod.fst) : x ∈ (skRemove k l).map Prod.fst := by
  induction l with
  | nil => simp at h
  | cons p rest ih =>
      obtain ⟨k₀, v₀⟩ := p
      rw [List.map_cons, List.mem_cons] at h
      by_cases h0 : k = k₀
      · rw [skRemove_cons_eq _ _ h0]
        rcases h with h | h
        · exact absurd (h.trans h0.symm) hne
        · exact h
      · rw [skRemove_cons_ne _ _ h0, List.map_cons, List.mem_cons]
        rcases h with h | h
        · exact Or.inl h
        · exact Or.inr (ih h)

theorem ne_of_mem_keys_skRemove {x k : Nat} {l : List (Nat × TxBytes)}
    (hnd : (l.map Prod.fst).Nodup) (h : x ∈ (skRemove k l).map Prod.fst) :
    x ≠ k := by
  induction l with
  | nil => simp [skRemove] at h
  | cons p rest ih =>
      obtain ⟨k₀, v₀⟩ := p
      rw [List.map_cons, List.nodup_cons] at hnd
      by_cases h0 : k = k₀
      · rw [skRemove_cons_eq _ _ h0] at h
        intro hx
        exact hnd.1 ((h0 ▸ hx) ▸ h)
      · rw [skRemove_cons_ne _ _ h0, List.map_cons, List.mem_cons] at h
        rcases h with h | h
        · subst h; exact fun hq => h0 hq.symm
        · exact ih hnd.2 h

/-- Folding `add_tx` over one list advances the counter by its length. -/
theorem addAll_counter (l : List TxDepth) :
    ∀ m : Mempool, (addAll m l).counter = m.counter + l.length := by
  induction l with
  | nil => intro m; simp [addAll]
  | cons t rest ih =>
      intro m
      show (addAll (m.add_tx t.tx_id t.bytes) rest).counter = _
      rw [ih]
      simp only [Mempool.add_tx, List.length_cons]
      omega

/-- The counter after a sequence of operations equals the starting counter
plus the number of insertions performed. -/
theorem applyOps_counter (ops : List Op) :
    ∀ m : Mempool, (applyOps m ops).counter = m.counter + countAdds ops := by
  induction ops with
  | nil => intro m; simp [applyOps, countAdds]
  | cons op rest ih =>
      intro m
      simp only [applyOps, List.foldl_cons] at *
      rw [ih (applyOp m op)]
      cases op with
      | add t b => simp [applyOp, Mempool.add_tx, countAdds, Op.isAdd]; omega
      | remove t =>
          have hc : (applyOp m (Op.remove t)).counter = m.counter := by
            simp only [applyOp, Mempool.remove_tx]
            cases dmLookup t m.txid_id_map <;> rfl
          rw [hc]
          simp [countAdds, Op.isAdd]

/-- C3: on a fresh store, after a sequence of operations with `n` insertions
(`add_tx` calls) and any number of removals, `counter()` returns exactly `n`;
moreover no single operation ever decreases the counter, so the counter is
always at least the historical number of insertions. -/
theorem c3_counter (ops : List Op) (m : Mempool) (op : Op) :
    (applyOps Mempool.new ops).counter = countAdds ops ∧
      m.counter ≤ (applyOp m op).counter := by
  constructor
  · rw [applyOps_counter]; simp [Mempool.new]
  · cases op with
    | add t b => simp [applyOp, Mempool.add_tx]
    | remove t =>
        simp only [applyOp, Mempool.remove_tx]
        cases dmLookup t m.txid_id_map <;> simp

theorem mpInv_new : MpInv Mempool.new := by
  refine ⟨?_, ?_, ?_, ?_, ?_, ?_⟩ <;> simp [Mempool.new]

theorem mpInv_add {m : Mempool} (t : TxId) (b : TxBytes) (h : MpInv m) :
    MpInv (m.add_tx t b) := by
  have hc : (m.add_tx t b).counter = m.counter + 1 := rfl
  have hm1 : (m.add_tx t b).txid_id_map = dmInsert t m.counter m.txid_id_map := rfl
  have hm2 : (m.add_tx t b).id_tx_map = skInsert m.counter b m.id_tx_map := rfl
  refine ⟨?_, ?_, fun s hs => ?_, fun s hs => ?_, ?_, fun x hx => ?_⟩
  · rw [hm1]; exact keys_dmInsert_nodup h.tkNodup
  · rw [hm1]; exact snds_dmInsert_nodup h.vLt h.vNodup
  · rw [hm1] at hs
    rw [hc]
    rcases snds_dmInsert_subset hs with h1 | h1
    · omega
    · have := h.vLt s h1
      omega
  · rw [hm1] at hs
    rw [hm2]
    rcases snds_dmInsert_subset hs with h1 | h1
    · subst h1
      exact self_mem_keys_skInsert _ _ _
    · exact mem_keys_skInsert_of_mem _ _ (h.vInM2 s h1)
  · rw [hm2]; exact keys_skInsert_sorted h.kSorted
  · rw [hm2] at hx
    rw [hc]
    rcases keys_skInsert_subset hx with h1 | h1
    · omega
    · have := h.kLt x h1
      omega

theorem mpInv_remove {m : Mempool} (t : TxId) (h : MpInv m) :
    MpInv (m.remove_tx t) := by
  rw [Mempool.remove_tx]
  split
  next s hl =>
    refine ⟨?_, ?_, fun s' hs' => ?_, fun s' hs' => ?_, ?_, fun x hx => ?_⟩
    · exact h.tkNodup.sublist ((dmErase_sublist t _).map Prod.fst)
    · exact h.vNodup.sublist ((dmErase_sublist t _).map Prod.snd)
    · exact h.vLt s' (((dmErase_sublist t _).map Prod.snd).subset hs')
    · rcases List.mem_map.mp hs' with ⟨p, hp, rfl⟩
      have hpl : p ∈ m.txid_id_map := (dmErase_sublist t _).subset hp
      have hne : p.1 ≠ t := fst_ne_of_mem_dmErase h.tkNodup hp
      have hin : p.2 ∈ m.id_tx_map.map Prod.fst :=
        h.vInM2 p.2 (List.mem_map_of_mem Prod.snd hpl)
      have hts : (t, s) ∈ m.txid_id_map := dmLookup_mem hl
      have hps : p.2 ≠ s := by
        intro hq
        have hpe : p = (t, s) :=
          List.inj_on_of_nodup_map h.vNodup hpl hts (by rw [hq])
        exact hne (by rw [hpe])
      exact mem_keys_skRemove_of_ne hps hin
    · exact h.kSorted.sublist ((skRemove_sublist s _).map Prod.fst)
    · exact h.kLt x (((skRemove_sublist s _).map Prod.fst).subset hx)
  next hl => exact h

theorem mpInv_applyOp {m : Mempool} (op : Op) (h : MpInv m) :
    MpInv (applyOp m op) := by
  cases op with
  | add t b => exact mpInv_add t b h
  | remove t => exact mpInv_remove t h

theorem mpInv_applyOps (ops : List Op) :
    ∀ m : Mempool, MpInv m → MpInv (applyOps m ops) := by
  induction ops with
  | nil => exact fun m h => h
  | cons op rest ih =>
      intro m h
      exact ih (applyOp m op) (mpInv_applyOp op h)

theorem noOrphan_new : NoOrphan Mempool.new := by
  intro k hk
  simp [Mempool.new] at hk

theorem noOrphan_add_fresh {m : Mempool} (t : TxId) (b : TxBytes)
    (hno : NoOrphan m) (hfresh : dmLookup t m.txid_id_map = none) :
    NoOrphan (m.add_tx t b) := by
  intro k hk
  simp only [Mempool.add_tx] at hk ⊢
  rw [dmInsert_absent (dmLookup_eq_none.mp hfresh), List.map_append,
    List.mem_append]
  rcases keys_skInsert_subset hk with h1 | h1
  · right
    simp [h1]
  · left
    exact hno k h1

theorem noOrphan_remove {m : Mempool} (t : TxId) (h : MpInv m)
    (hno : NoOrphan m) : NoOrphan (m.remove_tx t) := by
  rw [Mempool.remove_tx]
  split
  next s hl =>
    intro k hk
    have hknd : (m.id_tx_map.map Prod.fst).Nodup :=
      h.kSorted.imp (fun hab => Nat.ne_of_lt hab)
    have hkid : k ∈ m.id_tx_map.map Prod.fst :=
      ((skRemove_sublist s _).map Prod.fst).subset hk
    have hks : k ≠ s := ne_of_mem_keys_skRemove hknd hk
    have hsnd : k ∈ m.txid_id_map.map Prod.snd := hno k hkid
    rcases List.mem_map.mp hsnd with ⟨p, hp, rfl⟩
    have hts : (t, s) ∈ m.txid_id_map := dmLookup_mem hl
    have hpt : p.1 ≠ t := by
      intro hq
      have hpe : p = (t, s) :=
        List.inj_on_of_nodup_map h.tkNodup hp hts (by rw [hq])
      exact hks (by rw [hpe])
    exact List.mem_map_of_mem Prod.snd (mem_dmErase_of_ne hpt hp)
  next hl => exact hno

theorem inv_applyOps_fresh (ops : List Op) :
    ∀ m : Mempool, MpInv m → NoOrphan m → freshAdds m ops = true →
      MpInv (applyOps m ops) ∧ NoOrphan (applyOps m ops) := by
  induction ops with
  | nil => exact fun m h hno _ => ⟨h, hno⟩
  | cons op rest ih =>
      intro m h hno hf
      cases op with
      | add t b =>
          rw [freshAdds, Bool.and_eq_true, Option.isNone_iff_eq_none] at hf
          exact ih (m.add_tx t b) (mpInv_add t b h)
            (noOrphan_add_fresh t b hno hf.1) hf.2
      | remove t =>
          rw [freshAdds] at hf
          exact ih (m.remove_tx t) (mpInv_remove t h)
            (noOrphan_remove t h hno) hf

theorem length_le_of_mpInv {m : Mempool} (h : MpInv m) :
    m.txid_id_map.length ≤ m.id_tx_map.length := by
  have h1 : (m.txid_id_map.map Prod.snd).Subperm (m.id_tx_map.map Prod.fst) :=
    List.subperm_of_subset h.vNodup (fun s hs => h.vInM2 s hs)
  have h2 := h1.length_le
  simpa using h2

theorem length_eq_of_noOrphan {m : Mempool} (h : MpInv m) (hno : NoOrphan m) :
    m.txid_id_map.length = m.id_tx_map.length := by
  refine Nat.le_antisymm (length_le_of_mpInv h) ?_
  have hknd : (m.id_tx_map.map Prod.fst).Nodup :=
    h.kSorted.imp (fun hab => Nat.ne_of_lt hab)
  have h1 : (m.id_tx_map.map Prod.fst).Subperm (m.txid_id_map.map Prod.snd) :=
    List.subperm_of_subset hknd (fun k hk => hno k hk)
  have h2 := h1.length_le
  simpa using h2

/-- C1 counterexample: inserting the same `TxId` twice on a fresh store
leaves `txid_id_map` with 1 entry but `id_tx_map` with 2 entries (the
overwritten `Seq`'s bytes are never removed), so the claimed equality of the
two map cardinalities fails for sequences that re-insert a present `TxId`. -/
theorem c1_counterexample :
    ¬ ((applyOps Mempool.new [Op.add "a" [], Op.add "a" [1]]).txid_id_map.length
      = (applyOps Mempool.new [Op.add "a" [], Op.add "a" [1]]).id_tx_map.length) := by
  decide

/-- C1 (amended): for every sequence of `add_tx`/`remove_tx` operations on a
fresh store, at every quiescent point `|txid_id_map| ≤ |id_tx_map|`; and if
no `add_tx` in the sequence re-inserts a `TxId` present at that moment, the
two cardinalities are equal. -/
theorem c1_amended (ops : List Op) :
    (applyOps Mempool.new ops).txid_id_map.length
        ≤ (applyOps Mempool.new ops).id_tx_map.length ∧
      (freshAdds Mempool.new ops = true →
        (applyOps Mempool.new ops).txid_id_map.length
          = (applyOps Mempool.new ops).id_tx_map.length) := by
  constructor
  · exact length_le_of_mpInv (mpInv_applyOps ops Mempool.new mpInv_new)
  · intro hf
    obtain ⟨h1, h2⟩ := inv_applyOps_fresh ops Mempool.new mpInv_new noOrphan_new hf
    exact length_eq_of_noOrphan h1 h2

/-- Witness for C1: a concrete fresh-add run (two distinct inserts and a
removal of an absent key) on which the amended equality holds. -/
theorem c1_witness :
    freshAdds Mempool.new [Op.add "a" [], Op.remove "b", Op.add "c" [2]] = true ∧
      (applyOps Mempool.new
          [Op.add "a" [], Op.remove "b", Op.add "c" [2]]).txid_id_map.length
        = (applyOps Mempool.new
          [Op.add "a" [], Op.remove "b", Op.add "c" [2]]).id_tx_map.length :=
  ⟨by decide,
    (c1_amended [Op.add "a" [], Op.remove "b", Op.add "c" [2]]).2 (by decide)⟩

/-- C6: for every reachable store state and every bound `s0`,
`pos_data_iterator_from s0` yields exactly the currently-present entries of
`id_tx_map` whose `Seq` is at least `s0` (lower bound inclusive), in
strictly ascending `Seq` order. -/
theorem c6_iter_from (ops : List Op) (s0 k : Nat) (v : TxBytes) :
    ((k, v) ∈ (applyOps Mempool.new ops).pos_data_iterator_from s0 ↔
      ((k, v) ∈ (applyOps Mempool.new ops).id_tx_map ∧ s0 ≤ k)) ∧
    (((applyOps Mempool.new ops).pos_data_iterator_from s0).map Prod.fst).Sorted
      (· < ·) := by
  constructor
  · simp [Mempool.pos_data_iterator_from, List.mem_filter]
  · have hinv := mpInv_applyOps ops Mempool.new mpInv_new
    exact hinv.kSorted.sublist ((List.filter_sublist _).map Prod.fst)

theorem txsdataLoop_false (m : Mempool) (l : List (Nat × TxBytes)) :
    txsdataLoop m l false = framesBytes l := by
  induction l with
  | nil => rfl
  | cons e rest ih => simp [txsdataLoop, framesBytes, ih]

theorem be_bytes_magic : be_bytes 8 (2 ^ 64 - 1) = List.replicate 8 255 := by
  decide

/-- C4: the `/txsdata` body is empty when the store holds no entries
(`id_tx_map` yields nothing); otherwise it is the 8-byte big-endian magic
`0xFFFFFFFFFFFFFFFF` (eight 255 bytes), the 4-byte big-endian `len()` size
hint, the 8-byte big-endian counter snapshot, and then one frame per
yielded entry: 4 big-endian bytes of the payload length followed by the
payload. -/
theorem c4_txsdata_framing (m : Mempool) :
    (m.id_tx_map = [] → txsdata m = []) ∧
    (m.id_tx_map ≠ [] →
      txsdata m = List.replicate 8 255 ++ be_bytes 4 m.len ++
        be_bytes 8 m.counter ++ framesBytes m.id_tx_map) := by
  constructor
  · intro h
    rw [txsdata, h]
    rfl
  · intro h
    rw [txsdata]
    cases hm : m.id_tx_map with
    | nil => exact absurd hm h
    | cons e rest =>
        have hmagic : be_bytes 8 18446744073709551615 = List.replicate 8 255 := by
          decide
        simp [txsdataLoop, framesBytes, txsdataLoop_false, hmagic]

/-- Witness for C4: a fresh store yields an empty body; a store with one
entry yields the full header plus its single frame. -/
theorem c4_witness :
    Mempool.new.id_tx_map = [] ∧ txsdata Mempool.new = [] ∧
      (Mempool.new.add_tx "a" [7, 8]).id_tx_map ≠ [] ∧
      txsdata (Mempool.new.add_tx "a" [7, 8]) =
        List.replicate 8 255 ++ be_bytes 4 (Mempool.new.add_tx "a" [7, 8]).len ++
          be_bytes 8 (Mempool.new.add_tx "a" [7, 8]).counter ++
          framesBytes (Mempool.new.add_tx "a" [7, 8]).id_tx_map :=
  ⟨rfl, (c4_txsdata_framing Mempool.new).1 rfl, by decide,
    (c4_txsdata_framing (Mempool.new.add_tx "a" [7, 8])).2 (by decide)⟩

/-- C5: `update_mempool` on `SeqStart{bitcoind_already_working: true}`
returns Ok and leaves the store unchanged; on `SeqStart{false}` and on
`SeqError` it returns an error and leaves the store unchanged; on
`TxRemoved{txid}` it returns Ok with `txid` removed (a no-op when absent);
and those are the only events handled without an RPC call: their RPC-call
count is 0, while `TxAdded`, `BlockConnection` and `BlockDisconnection`
each perform at least one RPC call (whenever the external txid/blockhash
parse succeeds — on the event stream's contract it always does; a parse
failure returns an error before any call). -/
theorem c5_update_events (m : Mempool) (bcc : Client)
    (hfs bfs : String → Except String String) (err t h : String) :
    update_mempool m (MempoolSequence.seqStart true) bcc hfs bfs
        = (Except.ok (), m, 0) ∧
      (∃ e, update_mempool m (MempoolSequence.seqStart false) bcc hfs bfs
        = (Except.error e, m, 0)) ∧
      (∃ e, update_mempool m (MempoolSequence.seqError err) bcc hfs bfs
        = (Except.error e, m, 0)) ∧
      update_mempool m (MempoolSequence.txRemoved t) bcc hfs bfs
        = (Except.ok (), m.remove_tx t, 0) ∧
      (dmLookup t m.txid_id_map = none → m.remove_tx t = m) ∧
      ((∃ tid, hfs t = Except.ok tid) →
        0 < (update_mempool m (MempoolSequence.txAdded t) bcc hfs bfs).2.2) ∧
      ((∃ bh, bfs h = Except.ok bh) →
        0 < (update_mempool m (MempoolSequence.blockConnection h) bcc hfs bfs).2.2) ∧
      ((∃ bh, bfs h = Except.ok bh) →
        0 < (update_mempool m (MempoolSequence.blockDisconnection h) bcc hfs bfs).2.2) := by
  refine ⟨rfl, ⟨_, rfl⟩, ⟨_, rfl⟩, rfl, ?_, ?_, ?_, ?_⟩
  · intro hl
    rw [Mempool.remove_tx, hl]
  · rintro ⟨tid, htid⟩
    simp only [update_mempool, htid]
    cases hb : bcc.get_raw_transaction_hex tid <;> simp
  · rintro ⟨bh, hbh⟩
    simp only [update_mempool, hbh]
    cases hb : bcc.get_block_info bh <;> simp
  · rintro ⟨bh, hbh⟩
    simp only [update_mempool, hbh]
    cases hb : bcc.get_block_info bh with
    | error e => simp
    | ok txs => simp

/-- Witness for C5: a concrete store, client and always-succeeding parse
oracle, with the parse hypotheses discharged. -/
theorem c5_witness :
    (∃ e, update_mempool Mempool.new (MempoolSequence.seqStart false)
        ⟨fun _ => none, fun _ => Except.error "e"⟩ Except.ok Except.ok
      = (Except.error e, Mempool.new, 0)) ∧
      0 < (update_mempool Mempool.new (MempoolSequence.txAdded "t")
        ⟨fun _ => none, fun _ => Except.error "e"⟩ Except.ok Except.ok).2.2 ∧
      0 < (update_mempool Mempool.new (MempoolSequence.blockConnection "h")
        ⟨fun _ => none, fun _ => Except.error "e"⟩ Except.ok Except.ok).2.2 ∧
      0 < (update_mempool Mempool.new (MempoolSequence.blockDisconnection "h")
        ⟨fun _ => none, fun _ => Except.error "e"⟩ Except.ok Except.ok).2.2 :=
  ⟨(c5_update_events Mempool.new ⟨fun _ => none, fun _ => Except.error "e"⟩
      Except.ok Except.ok "err" "t" "h").2.1,
   (c5_update_events Mempool.new ⟨fun _ => none, fun _ => Except.error "e"⟩
      Except.ok Except.ok "err" "t" "h").2.2.2.2.2.1 ⟨"t", rfl⟩,
   (c5_update_events Mempool.new ⟨fun _ => none, fun _ => Except.error "e"⟩
      Except.ok Except.ok "err" "t" "h").2.2.2.2.2.2.1 ⟨"h", rfl⟩,
   (c5_update_events Mempool.new ⟨fun _ => none, fun _ => Except.error "e"⟩
      Except.ok Except.ok "err" "t" "h").2.2.2.2.2.2.2 ⟨"h", rfl⟩⟩

/-- C7 counterexample: the routes are mounted at "/mempoolServer", not at
the claimed "/mempool". -/
theorem c7_counterexample : ¬ (mountPoint = "/mempool") := by
  decide

/-- C7 (amended): the four endpoints are mounted under the hard-coded
prefix "/mempoolServer" (the prefix is not configurable), so GET
/mempoolServer/size serves the decimal ASCII rendering of `store.size()`
(the length of `txid_id_map`). -/
theorem c7_amended :
    mountPoint = "/mempoolServer" ∧
      routePaths.length = 4 ∧
      mountPoint ++ "/size" = "/mempoolServer/size" ∧
      ∀ m : Mempool, size_endpoint m = Nat.repr m.txid_id_map.length :=
  ⟨rfl, rfl, rfl, fun _ => rfl⟩

/-- C8 (code bug): with config.toml present and `waittimeoutsec` provided
neither in the file nor through an `MPS_` environment variable,
`Settings::new` succeeds but yields `wait_timeout_sec = None` instead of the
documented default 60: the builder's default is registered under the
misspelled key `bitcoindclient.waittimeout` (and with value "5"), which the
`waittimeoutsec` deserialization never reads.  The documented default 60 is
honoured only on the other path, when config.toml is absent. -/
theorem c8_settings_default_bug :
    (∃ s, Settings.new srcPresent = Except.ok s ∧
        s.bitcoind_client.wait_timeout_sec = none) ∧
      (∃ s, Settings.new srcAbsent = Except.ok s ∧
        s.bitcoind_client.wait_timeout_sec = some 60) :=
  ⟨⟨{ bitcoind_client :=
        { cookie_auth_path := none, ip_addr := "127.0.0.1", user := none,
          passwd := none, zmq_port := 29000, wait_timeout_sec := none } },
      rfl, rfl⟩,
    ⟨Settings.default "/home/user", rfl, rfl⟩⟩

/-- C9: the Debug rendering of `BitcoindClient` does not depend on the
`user` and `passwd` fields — two configurations equal on all other fields
render identically, so the configured secrets never influence (hence never
appear in) the output — and the rendering shows the literal "****" in the
user and passwd slots, as the fully evaluated example exhibits. -/
theorem c9_debug_elides (c1 c2 : BitcoindClient)
    (h1 : c1.cookie_auth_path = c2.cookie_auth_path)
    (h2 : c1.ip_addr = c2.ip_addr) (h3 : c1.zmq_port = c2.zmq_port)
    (h4 : c1.wait_timeout_sec = c2.wait_timeout_sec) :
    bitcoindClientDebugFmt c1 = bitcoindClientDebugFmt c2 ∧
      bitcoindClientDebugFmt
          ⟨none, "localhost", some "alice", some "hunter2", 29000, some 60⟩ =
        "BitcoindClient \x7b cookie_auth_path: None, ip_addr: \"localhost\", user: \"****\", passwd: \"****\", zmqport: \"29000\", wait_timeout_sec: Some(60) \x7d" := by
  constructor
  · simp [bitcoindClientDebugFmt, h1, h2, h3, h4]
  · rfl

/-- Witness for C9: two configurations differing only in user and passwd
render to the same Debug string. -/
theorem c9_witness :
    bitcoindClientDebugFmt ⟨none, "localhost", some "alice", some "pw1", 29000, some 60⟩ =
      bitcoindClientDebugFmt ⟨none, "localhost", some "bob", some "pw2", 29000, some 60⟩ :=
  (c9_debug_elides _ _ rfl rfl rfl rfl).1

theorem padEmpties_getD (L : List (List TxDepth)) (n j : Nat) :
    (L ++ List.replicate n ([] : List TxDepth)).getD j [] = L.getD j [] := by
  induction L generalizing j with
  | nil =>
      simp only [List.nil_append]
      induction n generalizing j with
      | zero => rfl
      | succ n ihn =>
          cases j with
          | zero => rfl
          | succ j => simp [List.replicate, ihn j]
  | cons a L ih =>
      cases j with
      | zero => rfl
      | succ j => simpa using ih j

theorem getD_set_self (L : List (List TxDepth)) (i : Nat) (x : List TxDepth)
    (h : i < L.length) : (L.set i x).getD i [] = x := by
  induction L generalizing i with
  | nil => simp at h
  | cons a L ih =>
      cases i with
      | zero => rfl
      | succ i =>
          simp only [List.set]
          simpa using ih i (by simpa using h)

theorem getD_set_ne (L : List (List TxDepth)) (i j : Nat) (x : List TxDepth)
    (hne : i ≠ j) : (L.set i x).getD j [] = L.getD j [] := by
  induction L generalizing i j with
  | nil => rfl
  | cons a L ih =>
      cases i with
      | zero =>
          cases j with
          | zero => exact absurd rfl hne
          | succ j => rfl
      | succ i =>
          cases j with
          | zero => rfl
          | succ j =>
              simp only [List.set]
              simpa using ih i j (fun hq => hne (by rw [hq]))

theorem bucketPush_getD (acc : List (List TxDepth)) (t : TxDepth) (j : Nat) :
    (bucketPush acc t).getD j [] =
      if t.ancestor_count - 1 = j then acc.getD j [] ++ [t]
      else acc.getD j [] := by
  simp only [bucketPush]
  split
  next hle =>
      have h2 : t.ancestor_count - 1 <
          (acc ++ List.replicate (t.ancestor_count - 1 + 1 - acc.length)
            ([] : List TxDepth)).length := by
        rw [List.length_append, List.length_replicate]
        omega
      by_cases hj : t.ancestor_count - 1 = j
      · subst hj
        rw [if_pos rfl, getD_set_self _ _ _ h2, padEmpties_getD]
      · rw [if_neg hj, getD_set_ne _ _ _ _ hj, padEmpties_getD]
  next hle =>
      have h2 : t.ancestor_count - 1 < acc.length := by omega
      by_cases hj : t.ancestor_count - 1 = j
      · subst hj
        rw [if_pos rfl, getD_set_self _ _ _ h2]
      · rw [if_neg hj, getD_set_ne _ _ _ _ hj]

theorem foldl_bucketPush_getD (vec : List TxDepth) :
    ∀ (acc : List (List TxDepth)) (j : Nat),
      (vec.foldl bucketPush acc).getD j [] =
        acc.getD j [] ++ vec.filter (fun t => t.ancestor_count - 1 == j) := by
  induction vec with
  | nil => intro acc j; simp
  | cons t rest ih =>
      intro acc j
      rw [List.foldl_cons, ih, bucketPush_getD, List.filter_cons]
      by_cases hj : t.ancestor_count - 1 = j
      · rw [if_pos hj]
        have hb : (t.ancestor_count - 1 == j) = true := by simp [hj]
        rw [hb]
        simp
      · rw [if_neg hj]
        have hb : (t.ancestor_count - 1 == j) = false := by simp [hj]
        rw [hb]
        simp

theorem get_mempool_layers_getD (vec : List TxDepth) (j : Nat) :
    (get_mempool_layers vec).getD j [] =
      vec.filter (fun t => t.ancestor_count - 1 == j) := by
  have h := foldl_bucketPush_getD vec [] j
  simpa [get_mempool_layers] using h

theorem bucketPush_length (acc : List (List TxDepth)) (t : TxDepth) :
    (bucketPush acc t).length = max acc.length (t.ancestor_count - 1 + 1) := by
  simp only [bucketPush, List.length_set]
  split
  next hle => rw [List.length_append, List.length_replicate]; omega
  next hle => omega

theorem foldl_bucketPush_length (vec : List TxDepth) :
    ∀ acc : List (List TxDepth),
      (vec.foldl bucketPush acc).length =
        vec.foldl (fun a t => max a (t.ancestor_count - 1 + 1)) acc.length := by
  induction vec with
  | nil => intro acc; rfl
  | cons t rest ih =>
      intro acc
      rw [List.foldl_cons, ih, bucketPush_length, List.foldl_cons]

theorem foldl_max_anc (vec : List TxDepth)
    (h : ∀ t ∈ vec, 1 ≤ t.ancestor_count) :
    ∀ a : Nat, vec.foldl (fun a t => max a (t.ancestor_count - 1 + 1)) a
      = vec.foldl (fun a t => max a t.ancestor_count) a := by
  induction vec with
  | nil => intro a; rfl
  | cons t rest ih =>
      intro a
      have h1 : 1 ≤ t.ancestor_count := h t (List.mem_cons_self _ _)
      have h2 : t.ancestor_count - 1 + 1 = t.ancestor_count := by omega
      rw [List.foldl_cons, List.foldl_cons, h2]
      exact ih (fun t ht => h t (List.mem_cons_of_mem _ ht)) _

theorem join_replicate_nil (n : Nat) :
    (List.replicate n ([] : List TxDepth)).flatten = [] := by
  induction n with
  | zero => rfl
  | succ n ih => simp [List.replicate, ih]

theorem join_set_snoc (L : List (List TxDepth)) :
    ∀ (i : Nat) (x : TxDepth), i < L.length →
      (L.set i (L.getD i [] ++ [x])).flatten.Perm (L.flatten ++ [x]) := by
  induction L with
  | nil => intro i x h; simp at h
  | cons a L ih =>
      intro i x h
      cases i with
      | zero =>
          simp only [List.set, List.getD_cons_zero, List.flatten_cons,
            List.append_assoc]
          have hp : ([x] ++ L.flatten).Perm (L.flatten ++ [x]) :=
            List.perm_append_comm
          exact hp.append_left a
      | succ i =>
          simp only [List.set, List.getD_cons_succ, List.flatten_cons,
            List.append_assoc]
          exact (ih i x (by simpa using h)).append_left a

theorem bucketPush_join (acc : List (List TxDepth)) (t : TxDepth) :
    (bucketPush acc t).flatten.Perm (acc.flatten ++ [t]) := by
  simp only [bucketPush]
  split
  next hle =>
      have h2 : t.ancestor_count - 1 <
          (acc ++ List.replicate (t.ancestor_count - 1 + 1 - acc.length)
            ([] : List TxDepth)).length := by
        rw [List.length_append, List.length_replicate]
        omega
      have h := join_set_snoc _ (t.ancestor_count - 1) t h2
      rw [List.flatten_append, join_replicate_nil, List.append_nil] at h
      exact h
  next hle =>
      exact join_set_snoc acc (t.ancestor_count - 1) t (by omega)

theorem foldl_bucketPush_join (vec : List TxDepth) :
    ∀ acc : List (List TxDepth),
      (vec.foldl bucketPush acc).flatten.Perm (acc.flatten ++ vec) := by
  induction vec with
  | nil => intro acc; simp
  | cons t rest ih =>
      intro acc
      rw [List.foldl_cons]
      have h1 := ih (bucketPush acc t)
      have h2 := (bucketPush_join acc t).append_right rest
      have h3 : (acc.flatten ++ [t]) ++ rest = acc.flatten ++ (t :: rest) := by
        rw [List.append_assoc]
        rfl
      exact h1.trans (h3 ▸ h2)

theorem get_mempool_layers_join_perm (vec : List TxDepth) :
    (get_mempool_layers vec).flatten.Perm vec := by
  have h := foldl_bucketPush_join vec []
  simpa [get_mempool_layers] using h

theorem addAll_append (m : Mempool) (l1 l2 : List TxDepth) :
    addAll m (l1 ++ l2) = addAll (addAll m l1) l2 := by
  simp [addAll, List.foldl_append]

theorem load_mempool_with_eq_addAll_flatten (L : List (List TxDepth)) :
    ∀ m : Mempool, m.load_mempool_with L = addAll m L.flatten := by
  induction L with
  | nil => intro m; rfl
  | cons B tl ih =>
      intro m
      rw [List.flatten_cons, addAll_append, ← ih (addAll m B)]
      rfl

theorem addAll_lookup_not_mem {x : TxId} {l : List TxDepth}
    (h : x ∉ l.map TxDepth.tx_id) :
    ∀ m : Mempool,
      dmLookup x (addAll m l).txid_id_map = dmLookup x m.txid_id_map := by
  induction l with
  | nil => intro m; rfl
  | cons t rest ih =>
      intro m
      rw [List.map_cons, List.mem_cons, not_or] at h
      show dmLookup x (addAll (m.add_tx t.tx_id t.bytes) rest).txid_id_map = _
      rw [ih h.2 (m.add_tx t.tx_id t.bytes)]
      exact dmLookup_dmInsert_ne h.1 _ _

theorem addAll_lookup_mem {x : TxDepth} {l : List TxDepth}
    (hnd : (l.map TxDepth.tx_id).Nodup) (hx : x ∈ l) :
    ∀ m : Mempool, ∃ s : Nat,
      dmLookup x.tx_id (addAll m l).txid_id_map = some s ∧
        m.counter ≤ s ∧ s < m.counter + l.length := by
  induction l with
  | nil => simp at hx
  | cons t rest ih =>
      intro m
      rw [List.map_cons, List.nodup_cons] at hnd
      rcases List.mem_cons.mp hx with rfl | hx'
      · refine ⟨m.counter, ?_, Nat.le_refl _, by rw [List.length_cons]; omega⟩
        show dmLookup x.tx_id
          (addAll (m.add_tx x.tx_id x.bytes) rest).txid_id_map = _
        rw [addAll_lookup_not_mem hnd.1 (m.add_tx x.tx_id x.bytes)]
        exact dmLookup_dmInsert_self _ _ _
      · obtain ⟨s, hs1, hs2, hs3⟩ := ih hnd.2 hx' (m.add_tx t.tx_id t.bytes)
        have hc : (m.add_tx t.tx_id t.bytes).counter = m.counter + 1 := rfl
        rw [hc] at hs2 hs3
        exact ⟨s, hs1, by omega, by rw [List.length_cons]; omega⟩

theorem mem_getD_mem_flatten {L : List (List TxDepth)} {j : Nat} {x : TxDepth}
    (h : x ∈ L.getD j []) : x ∈ L.flatten := by
  induction L generalizing j with
  | nil =>
      have he : ([] : List (List TxDepth)).getD j [] = [] := rfl
      rw [he] at h
      simp at h
  | cons a L ih =>
      cases j with
      | zero =>
          rw [List.getD_cons_zero] at h
          rw [List.flatten_cons, List.mem_append]
          exact Or.inl h
      | succ j =>
          rw [List.getD_cons_succ] at h
          rw [List.flatten_cons, List.mem_append]
          exact Or.inr (ih h)

/-- The central bulk-load ordering lemma: loading a layered list whose
flattened txids are pairwise distinct assigns every member of an earlier
layer a strictly smaller `Seq` than every member of a later layer. -/
theorem layered_load_order (L : List (List TxDepth)) :
    ∀ (m : Mempool) (j1 j2 : Nat) (X Y : TxDepth),
      (L.flatten.map TxDepth.tx_id).Nodup → j1 < j2 →
      X ∈ L.getD j1 [] → Y ∈ L.getD j2 [] →
      ∃ sx sy,
        dmLookup X.tx_id (m.load_mempool_with L).txid_id_map = some sx ∧
          dmLookup Y.tx_id (m.load_mempool_with L).txid_id_map = some sy ∧
          sx < sy := by
  induction L with
  | nil =>
      intro m j1 j2 X Y _ _ hX _
      have he : ([] : List (List TxDepth)).getD j1 [] = [] := rfl
      rw [he] at hX
      simp at hX
  | cons B tl ih =>
      intro m j1 j2 X Y hnd hlt hX hY
      rw [List.flatten_cons, List.map_append, List.nodup_append] at hnd
      obtain ⟨hnd1, hnd2, hdisj⟩ := hnd
      have hload : m.load_mempool_with (B :: tl)
          = (addAll m B).load_mempool_with tl := rfl
      obtain ⟨j2', rfl⟩ : ∃ j2', j2 = j2' + 1 := ⟨j2 - 1, by omega⟩
      cases j1 with
      | zero =>
          rw [List.getD_cons_zero] at hX
          rw [List.getD_cons_succ] at hY
          have hYj : Y ∈ tl.flatten := mem_getD_mem_flatten hY
          obtain ⟨sx, hsx, hsx1, hsx2⟩ := addAll_lookup_mem hnd1 hX m
          have hXnot : X.tx_id ∉ tl.flatten.map TxDepth.tx_id := by
            intro hc
            exact hdisj (List.mem_map_of_mem _ hX) hc
          obtain ⟨sy, hsy, hsy1, hsy2⟩ := addAll_lookup_mem hnd2 hYj (addAll m B)
          have hcB : (addAll m B).counter = m.counter + B.length :=
            addAll_counter B m
          refine ⟨sx, sy, ?_, ?_, by omega⟩
          · rw [hload, load_mempool_with_eq_addAll_flatten,
              addAll_lookup_not_mem hXnot]
            exact hsx
          · rw [hload, load_mempool_with_eq_addAll_flatten]
            exact hsy
      | succ j1' =>
          rw [List.getD_cons_succ] at hX hY
          rw [hload]
          exact ih (addAll m B) j1' j2' X Y hnd2 (by omega) hX hY

/-- C2: after the bulk load (`get_mempool_layers` followed by
`load_mempool_with` on a fresh store), any transaction with a smaller
ancestor count receives a strictly smaller `Seq` than any transaction with a
larger ancestor count.  The hypotheses reflect the input contract of
`get_raw_mempool_verbose`: txids are pairwise distinct (keys of a map) and
every ancestor count is at least 1 (a root counts itself). -/
theorem c2_bulk_load_order (vec : List TxDepth) (X Y : TxDepth)
    (hnd : (vec.map TxDepth.tx_id).Nodup)
    (ha : ∀ t ∈ vec, 1 ≤ t.ancestor_count)
    (hX : X ∈ vec) (hY : Y ∈ vec)
    (hab : X.ancestor_count < Y.ancestor_count) :
    ∃ sx sy,
      dmLookup X.tx_id
          (Mempool.new.load_mempool_with (get_mempool_layers vec)).txid_id_map
        = some sx ∧
        dmLookup Y.tx_id
            (Mempool.new.load_mempool_with (get_mempool_layers vec)).txid_id_map
          = some sy ∧
        sx < sy := by
  have hperm := get_mempool_layers_join_perm vec
  have hndj : ((get_mempool_layers vec).flatten.map TxDepth.tx_id).Nodup :=
    (hperm.map TxDepth.tx_id).nodup_iff.mpr hnd
  have hXj : X ∈ (get_mempool_layers vec).getD (X.ancestor_count - 1) [] := by
    rw [get_mempool_layers_getD]
    exact List.mem_filter.mpr ⟨hX, by simp⟩
  have hYj : Y ∈ (get_mempool_layers vec).getD (Y.ancestor_count - 1) [] := by
    rw [get_mempool_layers_getD]
    exact List.mem_filter.mpr ⟨hY, by simp⟩
  have hj : X.ancestor_count - 1 < Y.ancestor_count - 1 := by
    have := ha X hX
    omega
  exact layered_load_order (get_mempool_layers vec) Mempool.new _ _ X Y
    hndj hj hXj hYj

/-- Witness for C2: two transactions with ancestor counts 1 and 2, with all
hypotheses discharged on the concrete input. -/
theorem c2_witness :
    ((([⟨1, "a", []⟩, ⟨2, "b", []⟩] : List TxDepth).map TxDepth.tx_id).Nodup) ∧
      (∀ t ∈ ([⟨1, "a", []⟩, ⟨2, "b", []⟩] : List TxDepth),
        1 ≤ t.ancestor_count) ∧
      ∃ sx sy,
        dmLookup "a"
            (Mempool.new.load_mempool_with
              (get_mempool_layers [⟨1, "a", []⟩, ⟨2, "b", []⟩])).txid_id_map
          = some sx ∧
          dmLookup "b"
              (Mempool.new.load_mempool_with
                (get_mempool_layers [⟨1, "a", []⟩, ⟨2, "b", []⟩])).txid_id_map
            = some sy ∧
          sx < sy :=
  ⟨by decide, by decide,
    c2_bulk_load_order [⟨1, "a", []⟩, ⟨2, "b", []⟩] ⟨1, "a", []⟩ ⟨2, "b", []⟩
      (by decide) (by decide) (by decide) (by decide) (by decide)⟩

/-- C10: when every record has `ancestor_count ≥ 1`, the index computation
`ancestor_count - 1` never underflows (checked subtraction succeeds and
agrees with the model), each bucket `j` of `get_mempool_layers` is exactly
the sublist of records with `ancestor_count - 1 = j` (so each record is
placed exactly once, and buckets for unrepresented intermediate counts are
present and empty), and the outer length is the maximum ancestor count (0
for an empty input); a record with `ancestor_count = 0` would make the
checked index computation underflow. -/
theorem c10_layers_total (vec : List TxDepth)
    (h : ∀ t ∈ vec, 1 ≤ t.ancestor_count) :
    (∀ t ∈ vec, checkedSub t.ancestor_count 1 = some (t.ancestor_count - 1)) ∧
      (∀ j, (get_mempool_layers vec).getD j [] =
        vec.filter (fun t => t.ancestor_count - 1 == j)) ∧
      (get_mempool_layers vec).length = maxAncestorCount vec ∧
      checkedSub 0 1 = none := by
  refine ⟨fun t ht => ?_, fun j => get_mempool_layers_getD vec j, ?_, rfl⟩
  · rw [checkedSub, if_pos (h t ht)]
  · rw [get_mempool_layers, foldl_bucketPush_length, maxAncestorCount]
    exact foldl_max_anc vec h 0

/-- Witness for C10: a concrete input with ancestor counts 1 and 3
(leaving the middle bucket empty), with the hypothesis discharged. -/
theorem c10_witness :
    (∀ t ∈ ([⟨1, "a", []⟩, ⟨3, "c", [5]⟩] : List TxDepth),
        1 ≤ t.ancestor_count) ∧
      ((∀ t ∈ ([⟨1, "a", []⟩, ⟨3, "c", [5]⟩] : List TxDepth),
          checkedSub t.ancestor_count 1 = some (t.ancestor_count - 1)) ∧
        (∀ j, (get_mempool_layers [⟨1, "a", []⟩, ⟨3, "c", [5]⟩]).getD j [] =
          ([⟨1, "a", []⟩, ⟨3, "c", [5]⟩] : List TxDepth).filter
            (fun t => t.ancestor_count - 1 == j)) ∧
        (get_mempool_layers [⟨1, "a", []⟩, ⟨3, "c", [5]⟩]).length =
          maxAncestorCount [⟨1, "a", []⟩, ⟨3, "c", [5]⟩] ∧
        checkedSub 0 1 = none) :=
  ⟨by decide, c10_layers_total [⟨1, "a", []⟩, ⟨3, "c", [5]⟩] (by decide)⟩
